import Mathlib

/-!
Shallow embedding of the outdated-plus core (version comparator, skip-rule
engine, row builder/sorter, bounded-concurrency scheduler) together with
theorems checking the natural-language specification against it.

Sources embedded:
- src/lib/utils.ts: parseSemver, comparePrereleaseIdentifiers,
  isVersionHigher, bumpType, parseSkipEntry, shouldSkipPackage, parseIsoZ,
  daysAgo, fmtTime
- src/lib/processing.ts (the six-parameter buildRows/sortRows invoked by
  src/index.ts): buildRows, sortRows
- src/lib/concurrency.ts: fetchWithConcurrency
- src/args.ts: the filter inside cleanupAndSaveSkipFile

Machine numbers are modelled as Nat/Int (the version segments the program
handles are far below 2^53, where JS numbers are exact); host functions
(Date.parse, Date formatting) are abstracted as explicit parameters.
-/

namespace OutdatedPlus

/-! ## Version comparator (src/lib/utils.ts) -/

/-- Character class `[0-9A-Za-z.-]` used by the semver regex for prerelease
and build-metadata segments. -/
def semverIdChar (c : Char) : Bool :=
  c.isAlphanum || c = '.' || c = '-'

/-- `parseInt(s, 10)` on a digit string: fold the decimal digits. -/
def natOfDigits (l : List Char) : Nat :=
  l.foldl (fun n c => n * 10 + (c.toNat - '0'.toNat)) 0

/-- JS `String.prototype.split('.')`: cut at every dot, keeping empty pieces. -/
def splitDot (l : List Char) : List String :=
  go l []
where
  go : List Char → List Char → List String
    | [], acc => [String.mk acc.reverse]
    | c :: cs, acc =>
        if c = '.' then String.mk acc.reverse :: go cs [] else go cs (c :: acc)

/-- The `\+[0-9A-Za-z.-]+$` build-metadata group: what may legally follow a
`'+'` up to the end of the string. -/
def validBuild (b : List Char) : Bool :=
  b ≠ [] ∧ b.all semverIdChar

/-- The optional `-prerelease` / `+build` tail of the semver regex
`(?:-([0-9A-Za-z.-]+))?(?:\+[0-9A-Za-z.-]+)?$`: returns the prerelease
identifier list (split on dots) on success. -/
def parseTail (l : List Char) : Option (List String) :=
  match l with
  | [] => some []
  | c :: rest =>
      if c = '-' then
        let pre := rest.takeWhile semverIdChar
        let r := rest.dropWhile semverIdChar
        if pre = [] then none
        else
          match r with
          | [] => some (splitDot pre)
          | c2 :: b =>
              if c2 = '+' then (if validBuild b then some (splitDot pre) else none)
              else none
      else if c = '+' then (if validBuild rest then some [] else none)
      else none

/-- A `(\d+)` group of the semver regex: the greedy leading digit run,
required nonempty, as a number plus the remaining characters. -/
def takeNum (cs : List Char) : Option (Nat × List Char) :=
  let d := cs.takeWhile Char.isDigit
  let r := cs.dropWhile Char.isDigit
  if d = [] then none else some (natOfDigits d, r)

/-- A literal `\.` of the semver regex: consume one dot. -/
def expectDot : List Char → Option (List Char)
  | [] => none
  | c :: r => if c = '.' then some r else none

/-- The `(\d+)\.(\d+)\.(\d+)` core of the semver regex: three dot-separated
digit runs, returning the remaining characters. -/
def parseMMP (cs : List Char) : Option (Nat × Nat × Nat × List Char) :=
  match takeNum cs with
  | none => none
  | some (a, r1) =>
      match expectDot r1 with
      | none => none
      | some r2 =>
          match takeNum r2 with
          | none => none
          | some (b, r3) =>
              match expectDot r3 with
              | none => none
              | some r4 =>
                  match takeNum r4 with
                  | none => none
                  | some (c, r5) => some (a, b, c, r5)

/-- `parseSemver` from src/lib/utils.ts: matches
`^[v=]*(\d+)\.(\d+)\.(\d+)(?:-([0-9A-Za-z.-]+))?(?:\+[0-9A-Za-z.-]+)?$`
and yields `[major, minor, patch, prerelease identifiers]`. -/
def parseSemver (v : String) : Option (Nat × Nat × Nat × List String) :=
  let cs := (v.toList).dropWhile (fun c => c = 'v' || c = '=')
  match parseMMP cs with
  | none => none
  | some (a, b, c, rest) =>
      match parseTail rest with
      | none => none
      | some pre => some (a, b, c, pre)

/-- `/^\d+$/.test(id)`: a nonempty all-digit identifier. -/
def isNumericId (s : String) : Bool :=
  s.toList ≠ [] ∧ s.toList.all Char.isDigit

/-- JS `<` on strings: lexicographic comparison by code unit (the
identifiers here are ASCII). -/
def lexLt : List Char → List Char → Bool
  | [], [] => false
  | [], _ :: _ => true
  | _ :: _, [] => false
  | a :: as, b :: bs => if a < b then true else if b < a then false else lexLt as bs

/-- One iteration of the identifier loop in `comparePrereleaseIdentifiers`:
numeric identifiers compare as integers, a numeric identifier is lower than
a non-numeric one, non-numeric identifiers compare lexically (0 = continue). -/
def cmpId (id1 id2 : String) : Int :=
  let num1 : Option Nat := if isNumericId id1 then some (natOfDigits id1.toList) else none
  let num2 : Option Nat := if isNumericId id2 then some (natOfDigits id2.toList) else none
  match num1, num2 with
  | some n1, some n2 => if n1 < n2 then -1 else if n2 < n1 then 1 else 0
  | some _, none => -1
  | none, some _ => 1
  | none, none =>
      if lexLt id1.toList id2.toList then -1
      else if lexLt id2.toList id1.toList then 1
      else 0

/-- The `for (let i = 0; i < maxLength; i++)` loop of
`comparePrereleaseIdentifiers`: an exhausted (shorter) sequence loses. -/
def cmpIdList : List String → List String → Int
  | [], [] => 0
  | [], _ :: _ => -1
  | _ :: _, [] => 1
  | a :: as, b :: bs =>
      let c := cmpId a b
      if c = 0 then cmpIdList as bs else c

/-- `comparePrereleaseIdentifiers` from src/lib/utils.ts: the empty
prerelease (a released version) outranks any prerelease; otherwise the
identifier loop decides. -/
def comparePrereleaseIdentifiers (pre1 pre2 : List String) : Int :=
  if pre1 = [] ∧ pre2 ≠ [] then 1
  else if pre1 ≠ [] ∧ pre2 = [] then -1
  else if pre1 = [] ∧ pre2 = [] then 0
  else cmpIdList pre1 pre2

/-- `isVersionHigher` from src/lib/utils.ts: true iff both versions parse and
the first has strictly higher SemVer precedence. -/
def isVersionHigher (version1 version2 : String) : Bool :=
  match parseSemver version1, parseSemver version2 with
  | some (ma1, mi1, pa1, pre1), some (ma2, mi2, pa2, pre2) =>
      if ma1 > ma2 then true
      else if ma1 < ma2 then false
      else if mi1 > mi2 then true
      else if mi1 < mi2 then false
      else if pa1 > pa2 then true
      else if pa1 < pa2 then false
      else comparePrereleaseIdentifiers pre1 pre2 > 0
  | _, _ => false

/-- The closed `BumpType` enumeration from src/lib/types.ts. -/
inductive BumpType
  | major
  | minor
  | patch
  | prerelease
  | same
  | unknown
deriving DecidableEq, Repr

/-- `Array.prototype.join('.')` on the prerelease identifiers. -/
def joinDot : List String → String
  | [] => ""
  | [s] => s
  | s :: rest => s ++ "." ++ joinDot rest

/-- `bumpType` from src/lib/utils.ts. -/
def bumpType (fromV toV : String) : BumpType :=
  match parseSemver fromV, parseSemver toV with
  | some (a0, a1, a2, apre), some (b0, b1, b2, bpre) =>
      if a0 = b0 ∧ a1 = b1 ∧ a2 = b2 then
        if joinDot apre = joinDot bpre then .same else .prerelease
      else if a0 ≠ b0 then .major
      else if a1 ≠ b1 then .minor
      else if a2 ≠ b2 then .patch
      else .unknown
  | _, _ => .unknown

/-! ## Skip-rule engine (src/lib/utils.ts, src/args.ts) -/

/-- JS `indexOf('@')` restricted to a character list: index of the first
`'@'`, if any. -/
def firstAt : List Char → Option Nat
  | [] => none
  | c :: cs => if c = '@' then some 0 else (firstAt cs).map (· + 1)

/-- JS `lastIndexOf('@')`: index of the last `'@'`, if any. -/
def lastAt : List Char → Option Nat
  | [] => none
  | c :: cs =>
      match lastAt cs with
      | some i => some (i + 1)
      | none => if c = '@' then some 0 else none

/-- `parseSkipEntry` from src/lib/utils.ts: tokens starting with `'@'` split
at `entry.indexOf('@', 1)` (first `'@'` at index ≥ 1), other tokens at
`entry.lastIndexOf('@')`; no separator means the whole token is the package
name, otherwise `substring` before/after the separator. -/
def parseSkipEntry (entry : String) : String × Option String :=
  let cs := entry.toList
  let atIndex : Option Nat :=
    if cs.head? = some '@' then (firstAt cs.tail).map (· + 1)
    else lastAt cs
  match atIndex with
  | none => (entry, none)
  | some i => (String.mk (cs.take i), some (String.mk (cs.drop (i + 1))))

/-- JS falsiness of the optional version string (`!skipVersion`): absent or
empty. -/
def versionFalsy : Option String → Bool
  | none => true
  | some v => v = ""

/-- `shouldSkipPackage` from src/lib/utils.ts: the loop over `skipEntries`
with its early `return true`. -/
def shouldSkipPackage (packageName currentVersion wantedVersion latestVersion : String) :
    List String → Bool
  | [] => false
  | entry :: rest =>
      let p := parseSkipEntry entry
      if p.1 ≠ packageName then
        shouldSkipPackage packageName currentVersion wantedVersion latestVersion rest
      else if versionFalsy p.2 then true
      else if p.2 = some latestVersion ∧ wantedVersion = currentVersion then true
      else shouldSkipPackage packageName currentVersion wantedVersion latestVersion rest

/-- `{current, wanted, latest}` entry of the detector's outdated mapping
(src/lib/types.ts). -/
structure OutdatedEntry where
  current : String
  wanted : String
  latest : String
deriving DecidableEq, Repr

/-- The predicate of the `skipConfig.packages.filter(...)` inside
`cleanupAndSaveSkipFile` (src/args.ts): drop entries whose package left the
outdated mapping; keep unversioned (or empty-version, falsy) entries; drop a
version-scoped entry once current or wanted equals or surpasses the skip
version. -/
def keepSkipEntry (outdated : List (String × OutdatedEntry)) (entry : String) : Bool :=
  let p := parseSkipEntry entry
  match outdated.lookup p.1 with
  | none => false
  | some info =>
      match p.2 with
      | none => true
      | some version =>
          if version = "" then true
          else
            let currentIsSkipVersionOrHigher :=
              info.current = version || isVersionHigher info.current version
            let wantedIsSkipVersionOrHigher :=
              info.wanted = version || isVersionHigher info.wanted version
            !currentIsSkipVersionOrHigher && !wantedIsSkipVersionOrHigher

/-- The `cleanedPackages` list computed by `cleanupAndSaveSkipFile`
(src/args.ts). -/
def cleanedPackages (packages : List String) (outdated : List (String × OutdatedEntry)) :
    List String :=
  packages.filter (keepSkipEntry outdated)

/-! ## Row builder and sorter (src/lib/processing.ts, the six-parameter
version invoked by src/index.ts)

`Date.parse` and the date formatting of `fmtTime` are host behaviour; they
are abstracted as explicit `dateParse` / `fmtHost` parameters, and `Date.now()`
as a `now` parameter. -/

/-- Package metadata `{latest, timeMap}` returned by the registry fetcher
(src/lib/types.ts). -/
structure Meta where
  latest : String
  timeMap : List (String × String)
deriving DecidableEq, Repr

/-- `parseIsoZ` from src/lib/utils.ts: a falsy (absent or empty) input is
`null`; a trailing `Z` is rewritten to `+00:00` before handing to
`Date.parse` (the `dateParse` parameter, `none` = non-finite result). -/
def parseIsoZ (dateParse : String → Option Int) (s : Option String) : Option Int :=
  match s with
  | none => none
  | some str =>
      if str = "" then none
      else
        let cs := str.toList
        let x := if cs.getLast? = some 'Z' then String.mk cs.dropLast ++ "+00:00" else str
        dateParse x

/-- `daysAgo` from src/lib/utils.ts: `max(0, floor((now - ms) / 86400000))`. -/
def daysAgo (now : Int) : Option Int → Option Int
  | none => none
  | some ms => some (max 0 ((now - ms).fdiv 86400000))

/-- `fmtTime` from src/lib/utils.ts: `'-'` for an unknown timestamp, the
host-formatted date otherwise. -/
def fmtTime (fmtHost : Int → Bool → String) (ms : Option Int) (iso : Bool) : String :=
  match ms with
  | none => "-"
  | some t => fmtHost t iso

/-- JS `a || b` on strings: the first operand unless it is empty. -/
def strOr (a b : String) : String :=
  if a = "" then b else a

/-- A display row (src/lib/types.ts): formatted fields plus raw sortable
fields. The raw age fields hold `Number.POSITIVE_INFINITY` for an unknown
age, modelled as `⊤` in `WithTop Int` (whose order matches JS `<` on
numbers-with-infinity). -/
structure Row where
  Package : String
  Current : String
  Wanted : String
  ToWanted : BumpType
  Latest : String
  ToLatest : BumpType
  PublishedWanted : String
  AgeWanted : String
  PublishedLatest : String
  AgeLatest : String
  _name : String
  _published_wanted : Int
  _published_latest : Int
  _age_wanted : WithTop Int
  _age_latest : WithTop Int
  _latest : String
deriving DecidableEq, Repr

/-- `metas[pkg] ?? { latest: '', timeMap: {} }`. -/
def metaFor (metas : List (String × Meta)) (pkg : String) : Meta :=
  (metas.lookup pkg).getD ⟨"", []⟩

/-- `const latest = latestFromOut || m.latest || ''` in buildRows. -/
def resolvedLatest (info : OutdatedEntry) (m : Meta) : String :=
  strOr info.latest (strOr m.latest "")

/-- `ageWanted ?? Number.POSITIVE_INFINITY` (and likewise for latest). -/
def ageKey : Option Int → WithTop Int
  | none => ⊤
  | some a => (a : Int)

/-- `a !== null && a >= cutoffDays` inside the cutoff filter of buildRows. -/
def meetsCutoff (cutoffDays : Int) : Option Int → Bool
  | none => false
  | some a => cutoffDays ≤ a

/-- The row literal pushed by buildRows, with all per-entry derived values. -/
def mkRow (dateParse : String → Option Int) (fmtHost : Int → Bool → String) (now : Int)
    (metas : List (String × Meta)) (useIso : Bool) (pkg : String) (info : OutdatedEntry) :
    Row :=
  let m := metaFor metas pkg
  let latest := resolvedLatest info m
  let dtWanted := parseIsoZ dateParse (m.timeMap.lookup info.wanted)
  let dtLatest := parseIsoZ dateParse (m.timeMap.lookup latest)
  let ageWanted := daysAgo now dtWanted
  let ageLatest := daysAgo now dtLatest
  { Package := pkg
    Current := info.current
    Wanted := info.wanted
    ToWanted := if info.wanted ≠ "" then bumpType info.current info.wanted else .unknown
    Latest := latest
    ToLatest := if latest ≠ "" then bumpType info.current latest else .unknown
    PublishedWanted := fmtTime fmtHost dtWanted useIso
    AgeWanted := match ageWanted with | none => "-" | some a => toString a
    PublishedLatest := fmtTime fmtHost dtLatest useIso
    AgeLatest := match ageLatest with | none => "-" | some a => toString a
    _name := String.mk (pkg.toList.map Char.toLower)
    _published_wanted := dtWanted.getD 0
    _published_latest := dtLatest.getD 0
    _age_wanted := ageKey ageWanted
    _age_latest := ageKey ageLatest
    _latest := latest }

/-- `buildRows` from src/lib/processing.ts (six-parameter version): skip
filter, identical-triple drop, age cutoff, then push the row. The `outdated`
mapping is iterated in entry order (last parameter for structural
recursion). -/
def buildRows (dateParse : String → Option Int) (fmtHost : Int → Bool → String) (now : Int)
    (metas : List (String × Meta)) (showAll : Bool) (cutoffDays : Int) (useIso : Bool)
    (skipPackages : List String) : List (String × OutdatedEntry) → List Row
  | [] => []
  | (pkg, info) :: rest =>
      let recur := buildRows dateParse fmtHost now metas showAll cutoffDays useIso
        skipPackages rest
      if shouldSkipPackage pkg info.current info.wanted info.latest skipPackages then recur
      else
        let m := metaFor metas pkg
        let latest := resolvedLatest info m
        if info.current = info.wanted ∧ info.current = latest ∧ info.current ≠ "" then recur
        else
          let dtWanted := parseIsoZ dateParse (m.timeMap.lookup info.wanted)
          let dtLatest := parseIsoZ dateParse (m.timeMap.lookup latest)
          let ageWanted := daysAgo now dtWanted
          let ageLatest := daysAgo now dtLatest
          if showAll = false ∧
              (meetsCutoff cutoffDays ageWanted || meetsCutoff cutoffDays ageLatest) = false
            then recur
          else mkRow dateParse fmtHost now metas useIso pkg info :: recur

/-- The legal `sortBy` values of `Args` (src/lib/types.ts); `age` and
`published` fall to the `default` arm of the key switch. -/
inductive SortKey
  | age_latest
  | age_wanted
  | published_latest
  | published_wanted
  | name
  | current
  | wanted
  | latest
  | age
  | published
deriving DecidableEq, Repr

/-- `Args['order']`. -/
inductive SortOrder
  | asc
  | desc
deriving DecidableEq, Repr

/-- `key(a) < key(b)` for the selected sort key: JS `<` on the raw field
(numbers, numbers-with-infinity, or strings). -/
def keyLt (sortBy : SortKey) (a b : Row) : Bool :=
  match sortBy with
  | .age_latest => decide (a._age_latest < b._age_latest)
  | .age_wanted => decide (a._age_wanted < b._age_wanted)
  | .published_latest => decide (a._published_latest < b._published_latest)
  | .published_wanted => decide (a._published_wanted < b._published_wanted)
  | .name => lexLt a._name.toList b._name.toList
  | .current => lexLt a.Current.toList b.Current.toList
  | .wanted => lexLt a.Wanted.toList b.Wanted.toList
  | .latest => lexLt a._latest.toList b._latest.toList
  | .age => decide (a._published_latest < b._published_latest)
  | .published => decide (a._published_latest < b._published_latest)

/-- The comparator of sortRows:
`(a < b ? -1 : a > b ? 1 : 0) * rev` on the selected keys. -/
def cmpRows (sortBy : SortKey) (rev : Int) (a b : Row) : Int :=
  (if keyLt sortBy a b then -1 else if keyLt sortBy b a then 1 else 0) * rev

/-- `sortRows` from src/lib/processing.ts: a stable sort of a copy of `rows`
by the comparator (JS `Array.prototype.sort` is a stable sort; modelled by
insertion sort on the relation comparator ≤ 0). -/
def sortRows (rows : List Row) (sortBy : SortKey) (order : SortOrder) : List Row :=
  let rev : Int := match order with | .desc => -1 | .asc => 1
  List.insertionSort (fun a b => cmpRows sortBy rev a b ≤ 0) rows

/-! ## Bounded-concurrency scheduler (src/lib/concurrency.ts)

`fetchWithConcurrency` is single-threaded event-loop code; it is embedded as
a small-step system. A state holds the keys not yet launched (`pending`, the
items from `index` on), the launched-but-unsettled keys (`inFlight`), the
log of settlements in completion order (`settledLog`, one entry per
`onProgress` call), the `results` record, and the `resolved` flag. The
user-supplied operation is a pure outcome function `op` (`none` = the
promise rejects). `tick` is the launch loop; a settlement event runs the
`.then`/`.catch`/`.finally` chain of one in-flight key. -/

/-- One state of a `fetchWithConcurrency` run. -/
structure SchedState (T : Type) where
  pending : List String
  inFlight : List String
  settledLog : List String
  results : List (String × T)
  resolved : Bool
deriving DecidableEq, Repr

/-- `const limit = Math.max(1, concurrency)`. -/
def limitOf (concurrency : Int) : Nat :=
  (max 1 concurrency).toNat

/-- The `while (inFlight < limit && index < items.length)` launch loop of
`tick`: move keys from `pending` to the in-flight set while below the
limit. -/
def tickLoop (limit : Nat) : List String → List String → List String × List String
  | [], inF => ([], inF)
  | x :: xs, inF =>
      if inF.length < limit then tickLoop limit xs (inF ++ [x]) else (x :: xs, inF)

/-- `tick()` applied to a state. -/
def tick {T : Type} (limit : Nat) (s : SchedState T) : SchedState T :=
  let r := tickLoop limit s.pending s.inFlight
  { s with pending := r.1, inFlight := r.2 }

/-- The settlement of one in-flight key: `.then`/`.catch` write the result
(the fallback on rejection), `.finally` decrements the in-flight count,
fires `onProgress`, and either resolves the outer promise (everything
launched and settled) or ticks again. -/
def settleStep {T : Type} (op : String → Option T) (fallback : T) (limit : Nat)
    (s : SchedState T) (item : String) : SchedState T :=
  let inF := s.inFlight.erase item
  let s1 : SchedState T :=
    { s with
      inFlight := inF
      settledLog := item :: s.settledLog
      results := (item, (op item).getD fallback) :: s.results }
  if s1.pending = [] ∧ inF = [] then { s1 with resolved := true } else tick limit s1

/-- The state right after `fetchWithConcurrency` is entered: an empty item
list resolves immediately with an empty record; otherwise the first `tick()`
runs. -/
def startState (T : Type) (limit : Nat) (items : List String) : SchedState T :=
  if items = [] then ⟨[], [], [], [], true⟩
  else tick limit ⟨items, [], [], [], false⟩

/-- The states a `fetchWithConcurrency` run can reach: the start state, and
the settlement of any in-flight key of a reachable state. -/
inductive SchedReach (T : Type) (op : String → Option T) (fallback : T) (limit : Nat)
    (items : List String) : SchedState T → Prop
  | init : SchedReach T op fallback limit items (startState T limit items)
  | settle (s : SchedState T) (item : String)
      (hs : SchedReach T op fallback limit items s) (hmem : item ∈ s.inFlight) :
      SchedReach T op fallback limit items (settleStep op fallback limit s item)

/-! ## Helper lemmas -/

/-- Every row buildRows emits is the `mkRow` of one of the outdated
entries. -/
lemma buildRows_mem (dateParse : String → Option Int) (fmtHost : Int → Bool → String)
    (now : Int) (metas : List (String × Meta)) (showAll : Bool) (cutoffDays : Int)
    (useIso : Bool) (skipPackages : List String) (outdated : List (String × OutdatedEntry))
    (r : Row)
    (hr : r ∈ buildRows dateParse fmtHost now metas showAll cutoffDays useIso skipPackages
      outdated) :
    ∃ pkg info, (pkg, info) ∈ outdated ∧
      r = mkRow dateParse fmtHost now metas useIso pkg info := by
  induction outdated with
  | nil => simp [buildRows] at hr
  | cons hd tl ih =>
      obtain ⟨pkg, info⟩ := hd
      rw [buildRows] at hr
      dsimp only at hr
      split at hr
      · obtain ⟨p, i, hmem, hrow⟩ := ih hr
        exact ⟨p, i, List.mem_cons_of_mem _ hmem, hrow⟩
      · split at hr
        · obtain ⟨p, i, hmem, hrow⟩ := ih hr
          exact ⟨p, i, List.mem_cons_of_mem _ hmem, hrow⟩
        · split at hr
          · obtain ⟨p, i, hmem, hrow⟩ := ih hr
            exact ⟨p, i, List.mem_cons_of_mem _ hmem, hrow⟩
          · rcases List.mem_cons.mp hr with h | h
            · exact ⟨pkg, info, List.mem_cons_self _ _, h⟩
            · obtain ⟨p, i, hmem, hrow⟩ := ih h
              exact ⟨p, i, List.mem_cons_of_mem _ hmem, hrow⟩

/-- `strOr` chains expand to the if-then-else the spec describes. -/
lemma resolvedLatest_eq (info : OutdatedEntry) (m : Meta) :
    resolvedLatest info m =
      (if info.latest ≠ "" then info.latest
       else if m.latest ≠ "" then m.latest else "") := by
  unfold resolvedLatest strOr
  split_ifs <;> simp_all

/-- The `Package` field of a built row is its package name. -/
lemma mkRow_Package (dateParse : String → Option Int) (fmtHost : Int → Bool → String)
    (now : Int) (metas : List (String × Meta)) (useIso : Bool) (pkg : String)
    (info : OutdatedEntry) :
    (mkRow dateParse fmtHost now metas useIso pkg info).Package = pkg := rfl

/-- The `Latest` field of a built row is the resolved latest. -/
lemma mkRow_Latest (dateParse : String → Option Int) (fmtHost : Int → Bool → String)
    (now : Int) (metas : List (String × Meta)) (useIso : Bool) (pkg : String)
    (info : OutdatedEntry) :
    (mkRow dateParse fmtHost now metas useIso pkg info).Latest =
      resolvedLatest info (metaFor metas pkg) := rfl

/-! ## Claims -/

/-- C1: in buildRows, the resolved `Latest` of every emitted row prefers the
detector's reported latest (`info.latest`) and falls back to the fetched
metadata's latest only when the detector's value is empty, else the empty
string. -/
theorem buildRows_latest_prefers_detector (dateParse : String → Option Int)
    (fmtHost : Int → Bool → String) (now : Int) (outdated : List (String × OutdatedEntry))
    (metas : List (String × Meta)) (showAll : Bool) (cutoffDays : Int) (useIso : Bool)
    (skipPackages : List String) (r : Row)
    (hr : r ∈ buildRows dateParse fmtHost now metas showAll cutoffDays useIso skipPackages
      outdated) :
    ∃ info, (r.Package, info) ∈ outdated ∧
      r.Latest =
        (if info.latest ≠ "" then info.latest
         else if (metaFor metas r.Package).latest ≠ "" then (metaFor metas r.Package).latest
         else "") := by
  obtain ⟨pkg, info, hmem, hrow⟩ :=
    buildRows_mem dateParse fmtHost now metas showAll cutoffDays useIso skipPackages
      outdated r hr
  subst hrow
  rw [mkRow_Package]
  exact ⟨info, hmem, by rw [mkRow_Latest, resolvedLatest_eq]⟩

/-- Concrete outdated entry used by the C1 witness. -/
def wEntryA : OutdatedEntry := ⟨"1.0.0", "1.1.0", "2.0.0"⟩

/-- Concrete metadata map used by the C1 witness: the registry reports a
different latest than the detector. -/
def wMetasA : List (String × Meta) := [("a", ⟨"2.5.0", []⟩)]

/-- The row built for `wEntryA` in the C1 witness run. -/
def wRowA : Row := mkRow (fun _ => none) (fun _ _ => "") 0 wMetasA false "a" wEntryA

/-- Witness for C1 at a concrete run: one outdated entry with a nonempty
detector latest and a different metadata latest; the row keeps the
detector's value. -/
theorem buildRows_latest_prefers_detector_witness :
    ∃ info, (wRowA.Package, info) ∈ [(("a" : String), wEntryA)] ∧
      wRowA.Latest =
        (if info.latest ≠ "" then info.latest
         else if (metaFor wMetasA wRowA.Package).latest ≠ "" then
          (metaFor wMetasA wRowA.Package).latest
         else "") :=
  buildRows_latest_prefers_detector (fun _ => none) (fun _ _ => "") 0
    [("a", wEntryA)] wMetasA true 0 false [] wRowA (by decide)

/-- JS falsiness of the parsed version field, spelled out. -/
lemma versionFalsy_iff (v : Option String) :
    versionFalsy v = true ↔ v = none ∨ v = some "" := by
  cases v with
  | none => simp [versionFalsy]
  | some s => simp [versionFalsy]

/-- Characterization of the `shouldSkipPackage` loop. -/
lemma shouldSkipPackage_iff (n c w l : String) (es : List String) :
    shouldSkipPackage n c w l es = true ↔
      ∃ e ∈ es, (parseSkipEntry e).1 = n ∧
        ((parseSkipEntry e).2 = none ∨ (parseSkipEntry e).2 = some "" ∨
          ((parseSkipEntry e).2 = some l ∧ w = c)) := by
  induction es with
  | nil => simp [shouldSkipPackage]
  | cons e rest ih =>
      simp only [shouldSkipPackage]
      split_ifs with h1 h2 h3
      · rw [ih]
        constructor
        · rintro ⟨e0, hm, hc⟩
          exact ⟨e0, List.mem_cons_of_mem _ hm, hc⟩
        · rintro ⟨e0, hm, hc⟩
          rcases List.mem_cons.mp hm with rfl | hm0
          · exact absurd hc.1 h1
          · exact ⟨e0, hm0, hc⟩
      · simp only [true_iff]
        rcases (versionFalsy_iff _).mp h2 with hv | hv
        · exact ⟨e, List.mem_cons_self _ _, not_ne_iff.mp h1, Or.inl hv⟩
        · exact ⟨e, List.mem_cons_self _ _, not_ne_iff.mp h1, Or.inr (Or.inl hv)⟩
      · simp only [true_iff]
        exact ⟨e, List.mem_cons_self _ _, not_ne_iff.mp h1, Or.inr (Or.inr h3)⟩
      · rw [ih]
        constructor
        · rintro ⟨e0, hm, hc⟩
          exact ⟨e0, List.mem_cons_of_mem _ hm, hc⟩
        · rintro ⟨e0, hm, hc⟩
          rcases List.mem_cons.mp hm with rfl | hm0
          · rcases hc.2 with hv | hv | hv
            · exact absurd ((versionFalsy_iff _).mpr (Or.inl hv)) h2
            · exact absurd ((versionFalsy_iff _).mpr (Or.inr hv)) h2
            · exact absurd hv h3
          · exact ⟨e0, hm0, hc⟩

/-- C5: `shouldSkipPackage` returns true exactly when some skip entry parses
to the same package name and either carries no version (none, or the empty
string a trailing separator produces, both falsy and so unconditional), or
carries a version equal to the latest version while wanted equals current;
including the two documented concrete examples. -/
theorem shouldSkipPackage_characterization :
    (∀ (n c w l : String) (es : List String),
      shouldSkipPackage n c w l es = true ↔
        ∃ e ∈ es, (parseSkipEntry e).1 = n ∧
          ((parseSkipEntry e).2 = none ∨ (parseSkipEntry e).2 = some "" ∨
            ((parseSkipEntry e).2 = some l ∧ w = c))) ∧
    shouldSkipPackage "react" "18.1.0" "18.1.0" "18.3.0" ["react@18.3.0"] = true ∧
    shouldSkipPackage "react" "18.1.0" "18.2.0" "18.3.0" ["react@18.3.0"] = false :=
  ⟨shouldSkipPackage_iff, by decide, by decide⟩

/-- The spec's notion of current/wanted having reached or surpassed a skip
version: equality, or strictly higher under the comparator. -/
def reached (x v : String) : Prop :=
  x = v ∨ isVersionHigher x v = true

/-- From the claim's words: an entry the skip-list cleanup retains — its
package still outdated and, when version-scoped (nonempty version), neither
current nor wanted has reached the skip version. -/
def retainedSpec (outdated : List (String × OutdatedEntry)) (e : String) : Prop :=
  ∃ info, outdated.lookup (parseSkipEntry e).1 = some info ∧
    ∀ v, (parseSkipEntry e).2 = some v → v ≠ "" →
      ¬ reached info.current v ∧ ¬ reached info.wanted v

/-- The filter predicate of the cleanup agrees with the spec-side
predicate. -/
lemma keepSkipEntry_iff (outdated : List (String × OutdatedEntry)) (e : String) :
    keepSkipEntry outdated e = true ↔ retainedSpec outdated e := by
  unfold keepSkipEntry retainedSpec
  cases hl : outdated.lookup (parseSkipEntry e).1 with
  | none => simp [hl]
  | some info =>
      cases hv : (parseSkipEntry e).2 with
      | none => simp [hl, hv]
      | some v =>
          by_cases hve : v = ""
          · subst hve
            simp [hl, hv]
          · simp [hl, hv, hve, reached, not_or]

/-- C7: the skip-list cleanup retains exactly the entries whose package is
still in the outdated mapping and, for version-scoped entries, whose skip
version has been reached (equality or `isVersionHigher`) by neither the
current nor the wanted version; package absent always drops the entry. -/
theorem cleanup_filter_characterization (packages : List String)
    (outdated : List (String × OutdatedEntry)) (e : String) :
    e ∈ cleanedPackages packages outdated ↔ e ∈ packages ∧ retainedSpec outdated e := by
  simp only [cleanedPackages, List.mem_filter, keepSkipEntry_iff]

/-- The indices of every `'@'` in a token, in order. -/
def atPositions : List Char → List Nat
  | [] => []
  | c :: cs =>
      if c = '@' then 0 :: (atPositions cs).map (· + 1)
      else (atPositions cs).map (· + 1)

/-- Modelled from the claim's words: the separator is the second `'@'`
(index ≥ 1) when the token starts with `'@'`, and the last `'@'` otherwise;
no separator means the whole token is the package name. -/
def claimParseEntry (entry : String) : String × Option String :=
  let cs := entry.toList
  let sep : Option Nat :=
    if cs.head? = some '@' then (atPositions cs).get? 1
    else (atPositions cs).getLast?
  match sep with
  | none => (entry, none)
  | some i => (String.mk (cs.take i), some (String.mk (cs.drop (i + 1))))

/-- The first listed `'@'` position is the one `indexOf` finds. -/
lemma head?_atPositions (l : List Char) : (atPositions l).head? = firstAt l := by
  induction l with
  | nil => rfl
  | cons c cs ih =>
      by_cases hc : c = '@' <;> simp [atPositions, firstAt, hc, ih]

/-- Appending zero to the front of a position list only matters when the
list is empty. -/
lemma getLast?_zero_cons (M : List Nat) :
    (0 :: M).getLast? = if M = [] then some 0 else M.getLast? := by
  cases M with
  | nil => rfl
  | cons a as => simp [List.getLast?_cons_cons]

/-- The last listed `'@'` position is the one `lastIndexOf` finds. -/
lemma lastAt_eq_getLast? (l : List Char) : lastAt l = (atPositions l).getLast? := by
  induction l with
  | nil => rfl
  | cons c cs ih =>
      rw [lastAt, ih]
      cases hL : (atPositions cs).getLast? with
      | none =>
          have hnil : atPositions cs = [] := List.getLast?_eq_none_iff.mp hL
          by_cases hc : c = '@' <;> simp [atPositions, hc, hnil]
      | some j =>
          have hM : ((atPositions cs).map (· + 1)).getLast? = some (j + 1) := by
            rw [List.getLast?_map, hL]
            rfl
          have hMne : (atPositions cs).map (· + 1) ≠ [] := by
            intro h
            rw [List.map_eq_nil_iff] at h
            rw [h] at hL
            simp at hL
          by_cases hc : c = '@'
          · simp [atPositions, hc, getLast?_zero_cons, hMne, hM]
          · simp [atPositions, hc, hM]

/-- The source's separator search coincides with the claim's description of
it (second `'@'` for scope-style tokens, last `'@'` otherwise). -/
lemma parseSkipEntry_eq_claim (entry : String) :
    parseSkipEntry entry = claimParseEntry entry := by
  simp only [parseSkipEntry, claimParseEntry]
  by_cases hH : entry.toList.head? = some '@'
  · have hsep : (atPositions entry.toList).get? 1 = (firstAt entry.toList.tail).map (· + 1) := by
      cases hcs : entry.toList with
      | nil => rw [hcs] at hH; simp at hH
      | cons c rest =>
          rw [hcs] at hH
          simp only [List.head?_cons, Option.some.injEq] at hH
          subst hH
          simp [atPositions, List.get?_cons_succ, List.get?_zero, List.head?_map,
            ← List.head?_eq_getElem?, head?_atPositions]
    rw [if_pos hH, if_pos hH, hsep]
  · rw [if_neg hH, if_neg hH, lastAt_eq_getLast?]

/-- C6: parseSkipEntry splits a raw token at the second `'@'` (index ≥ 1)
when the token starts with `'@'`, and at the last `'@'` otherwise; no
separator means the whole token is the package name with no version; with
the documented scoped examples and a multi-`'@'` non-scoped example. -/
theorem parseSkipEntry_separator_spec :
    (∀ entry : String, parseSkipEntry entry = claimParseEntry entry) ∧
    parseSkipEntry "@scope/pkg@1.2.3" = ("@scope/pkg", some "1.2.3") ∧
    parseSkipEntry "@scope/pkg" = ("@scope/pkg", none) ∧
    parseSkipEntry "package@name@1.0.0" = ("package@name", some "1.0.0") :=
  ⟨parseSkipEntry_eq_claim, by decide, by decide, by decide⟩

/-- The launch loop never pushes the in-flight count past the limit. -/
lemma tickLoop_length_le (limit : Nat) (p f : List String) (hf : f.length ≤ limit) :
    (tickLoop limit p f).2.length ≤ limit := by
  induction p generalizing f with
  | nil => exact hf
  | cons x xs ih =>
      rw [tickLoop]
      split_ifs with h
      · exact ih (f ++ [x]) (by simpa using h)
      · exact hf

/-- `tick` preserves the in-flight bound. -/
lemma tick_length_le {T : Type} (limit : Nat) (s : SchedState T)
    (hf : s.inFlight.length ≤ limit) : (tick limit s).inFlight.length ≤ limit :=
  tickLoop_length_le limit s.pending s.inFlight hf

/-- Every reachable scheduler state keeps at most `limit` operations in
flight. -/
lemma schedReach_length_le {T : Type} (op : String → Option T) (fallback : T) (limit : Nat)
    (items : List String) (s : SchedState T)
    (hs : SchedReach T op fallback limit items s) : s.inFlight.length ≤ limit := by
  induction hs with
  | init =>
      rw [startState]
      split_ifs
      · simp
      · exact tick_length_le limit _ (by simp)
  | settle s item hs hmem ih =>
      rw [settleStep]
      have herase : (s.inFlight.erase item).length ≤ limit :=
        le_trans (List.length_erase_le _ _) ih
      dsimp only
      split_ifs
      · exact herase
      · exact tick_length_le limit _ herase

/-- C3: for every run of the bounded scheduler, with any item list, any
operation outcome, and any integer concurrency limit, the number of
launched-but-unsettled operations never exceeds `max(1, limit)` in any
reachable state; a limit below 1 is coerced to 1 rather than rejected. -/
theorem scheduler_inflight_bound (T : Type) (op : String → Option T) (fallback : T)
    (concurrency : Int) (items : List String) (s : SchedState T)
    (hs : SchedReach T op fallback (limitOf concurrency) items s) :
    s.inFlight.length ≤ limitOf concurrency ∧
      (concurrency < 1 → limitOf concurrency = 1) := by
  refine ⟨schedReach_length_le op fallback (limitOf concurrency) items s hs, fun hc => ?_⟩
  rw [limitOf, max_eq_left (le_of_lt hc)]
  rfl

/-- Witness for C3: a concrete run with concurrency 0 (coerced to 1) over
two items, checked at the state after one settlement. -/
theorem scheduler_inflight_bound_witness :
    (settleStep (fun _ => (none : Option Nat)) 0 (limitOf 0)
        (startState Nat (limitOf 0) ["a", "b"]) "a").inFlight.length ≤ limitOf 0 ∧
      ((0 : Int) < 1 → limitOf 0 = 1) :=
  scheduler_inflight_bound Nat (fun _ => none) 0 0 ["a", "b"]
    (settleStep (fun _ => none) 0 (limitOf 0) (startState Nat (limitOf 0) ["a", "b"]) "a")
    (SchedReach.settle _ "a" SchedReach.init (by decide))

/-- The launch loop only moves keys between pending and in-flight. -/
lemma tickLoop_perm (limit : Nat) (p f : List String) :
    ((tickLoop limit p f).1 ++ (tickLoop limit p f).2).Perm (p ++ f) := by
  induction p generalizing f with
  | nil => simp [tickLoop]
  | cons x xs ih =>
      rw [tickLoop]
      split_ifs with h
      · refine (ih (f ++ [x])).trans ?_
        exact (List.Perm.append_left xs (List.perm_append_singleton x f)).trans
          List.perm_middle
      · exact List.Perm.refl _

/-- `tick` leaves the settlement log untouched. -/
lemma tick_settledLog {T : Type} (limit : Nat) (s : SchedState T) :
    (tick limit s).settledLog = s.settledLog := rfl

/-- `tick` leaves the results untouched. -/
lemma tick_results {T : Type} (limit : Nat) (s : SchedState T) :
    (tick limit s).results = s.results := rfl

/-- `tick` leaves the resolved flag untouched. -/
lemma tick_resolved {T : Type} (limit : Nat) (s : SchedState T) :
    (tick limit s).resolved = s.resolved := rfl

/-- `tick` permutes the pending/in-flight keys among themselves. -/
lemma tick_keys_perm {T : Type} (limit : Nat) (s : SchedState T) :
    ((tick limit s).pending ++ (tick limit s).inFlight).Perm (s.pending ++ s.inFlight) :=
  tickLoop_perm limit s.pending s.inFlight

/-- Lookup after recording a key's own result. -/
lemma lookup_record_self {T : Type} (x : String) (v : T) (res : List (String × T)) :
    List.lookup x ((x, v) :: res) = some v := by
  simp [List.lookup]

/-- Lookup of other keys after recording a result. -/
lemma lookup_record_ne {T : Type} (x y : String) (v : T) (res : List (String × T))
    (h : x ≠ y) : List.lookup x ((y, v) :: res) = List.lookup x res := by
  have hb : (x == y) = false := beq_eq_false_iff_ne.mpr h
  simp [List.lookup, hb]

/-- Run invariant of the scheduler: the keys are exactly distributed over
pending, in-flight and the settlement log; logged keys carry their final
result (the fallback on rejection); a resolved run has nothing pending or
in flight. -/
def SchedInv {T : Type} (op : String → Option T) (fallback : T) (items : List String)
    (s : SchedState T) : Prop :=
  (s.pending ++ s.inFlight ++ s.settledLog).Perm items ∧
  (∀ x ∈ s.settledLog, List.lookup x s.results = some ((op x).getD fallback)) ∧
  (s.resolved = true → s.pending = [] ∧ s.inFlight = [])

/-- Every reachable scheduler state satisfies the run invariant. -/
lemma schedReach_inv {T : Type} (op : String → Option T) (fallback : T) (limit : Nat)
    (items : List String) (s : SchedState T)
    (hs : SchedReach T op fallback limit items s) : SchedInv op fallback items s := by
  induction hs with
  | init =>
      rw [startState]
      split_ifs with hnil
      · subst hnil
        exact ⟨by simp, by simp, fun _ => ⟨rfl, rfl⟩⟩
      · refine ⟨?_, by simp [tick_settledLog], fun hres => ?_⟩
        · have h := tick_keys_perm limit (⟨items, [], [], [], false⟩ : SchedState T)
          rw [tick_settledLog]
          dsimp only at h ⊢
          rw [List.append_nil] at h
          simpa using h
        · rw [tick_resolved] at hres
          simp at hres
  | settle s item hs hmem ih =>
      obtain ⟨hperm, hresults, hdone⟩ := ih
      have hflight : s.inFlight.Perm (item :: s.inFlight.erase item) :=
        List.perm_cons_erase hmem
      have hmid : (s.pending ++ s.inFlight.erase item ++ (item :: s.settledLog)).Perm
          (s.pending ++ s.inFlight ++ s.settledLog) := by
        rw [List.append_assoc, List.append_assoc]
        refine List.Perm.append_left _ ?_
        refine List.perm_middle.trans ?_
        rw [← List.cons_append]
        exact List.Perm.append_right _ hflight.symm
      have hresults2 : ∀ x ∈ item :: s.settledLog,
          List.lookup x ((item, (op item).getD fallback) :: s.results) =
            some ((op x).getD fallback) := by
        intro x hx
        by_cases hxi : x = item
        · subst hxi
          exact lookup_record_self x _ _
        · rw [lookup_record_ne x item _ _ hxi]
          rcases List.mem_cons.mp hx with h | h
          · exact absurd h hxi
          · exact hresults x h
      rw [settleStep]
      dsimp only
      split_ifs with hfin
      · exact ⟨hmid.trans hperm, hresults2, fun _ => hfin⟩
      · refine ⟨?_, ?_, fun hres => ?_⟩
        · rw [tick_settledLog]
          refine (List.Perm.append_right _
            (tick_keys_perm limit _)).trans ?_
          dsimp only
          exact hmid.trans hperm
        · rw [tick_settledLog, tick_results]
          exact hresults2
        · rw [tick_resolved] at hres
          dsimp only at hres
          obtain ⟨hp, hf⟩ := hdone hres
          rw [hf] at hmem
          simp at hmem

/-- C4: when a resolved state is reached, every key is in the result
mapping, a rejected key's entry equals the fallback, and the progress
callback fired exactly once per key (the settlement log counts it once). -/
theorem scheduler_absorbs_failures (T : Type) (op : String → Option T) (fallback : T)
    (concurrency : Int) (items : List String) (hnd : items.Nodup) (s : SchedState T)
    (hs : SchedReach T op fallback (limitOf concurrency) items s)
    (hres : s.resolved = true) :
    ∀ key ∈ items,
      (op key = none → List.lookup key s.results = some fallback) ∧
      (List.lookup key s.results).isSome = true ∧
      s.settledLog.count key = 1 := by
  obtain ⟨hperm, hresults, hdone⟩ :=
    schedReach_inv op fallback (limitOf concurrency) items s hs
  obtain ⟨hp, hf⟩ := hdone hres
  rw [hp, hf] at hperm
  simp only [List.nil_append] at hperm
  intro key hkey
  have hklog : key ∈ s.settledLog := hperm.mem_iff.mpr hkey
  refine ⟨fun hop => ?_, ?_, ?_⟩
  · have h := hresults key hklog
    rw [hop] at h
    exact h
  · rw [hresults key hklog]
    rfl
  · rw [hperm.count_eq key]
    exact List.count_eq_one_of_mem hnd hkey

/-- Operation used by the C4 witness run: the key `a` rejects, others
succeed with 7. -/
def wOp : String → Option Nat := fun k => if k = "a" then none else some 7

/-- C4 witness run, start state (limit 1 over two items). -/
def wS0 : SchedState Nat := startState Nat (limitOf 1) ["a", "b"]

/-- C4 witness run after `a` settles (rejected). -/
def wS1 : SchedState Nat := settleStep wOp 0 (limitOf 1) wS0 "a"

/-- C4 witness run after `b` settles (resolved). -/
def wS2 : SchedState Nat := settleStep wOp 0 (limitOf 1) wS1 "b"

/-- Witness for C4: in the concrete resolved run, the rejected key `a` maps
to the fallback, is present in the results, and was logged exactly once. -/
theorem scheduler_absorbs_failures_witness :
    (wOp "a" = none → List.lookup "a" wS2.results = some 0) ∧
      (List.lookup "a" wS2.results).isSome = true ∧
      wS2.settledLog.count "a" = 1 :=
  scheduler_absorbs_failures Nat wOp 0 1 ["a", "b"] (by decide) wS2
    (SchedReach.settle wS1 "b" (SchedReach.settle wS0 "a" SchedReach.init (by decide))
      (by decide))
    (by decide) "a" (by decide)

/-- Lexicographic comparison is irreflexive. -/
lemma lexLt_irrefl (l : List Char) : lexLt l l = false := by
  induction l with
  | nil => rfl
  | cons a as ih => simp [lexLt, ih]

/-- An identifier compares equal (continue) against itself. -/
lemma cmpId_self (a : String) : cmpId a a = 0 := by
  rw [cmpId]
  split_ifs with h <;> simp_all [lexLt_irrefl]

/-- In the identifier loop, a strict prefix loses. -/
lemma cmpIdList_prefix (p q : List String) (hq : q ≠ []) :
    cmpIdList p (p ++ q) = -1 := by
  induction p with
  | nil =>
      cases q with
      | nil => exact absurd rfl hq
      | cons b bs => simp [cmpIdList]
  | cons a as ih => simp [cmpIdList, cmpId_self, ih]

/-- In the identifier loop, a strict extension wins. -/
lemma cmpIdList_prefix_gt (p q : List String) (hq : q ≠ []) :
    cmpIdList (p ++ q) p = 1 := by
  induction p with
  | nil =>
      cases q with
      | nil => exact absurd rfl hq
      | cons b bs => simp [cmpIdList]
  | cons a as ih => simp [cmpIdList, cmpId_self, ih]

/-- C2: the comparator reproduces SemVer 2.0.0 prerelease ordering: each
adjacent pair of the documented chain is ordered strictly (higher one way,
not the other); positionally, two numeric identifiers compare as integers,
a numeric identifier is lower than a non-numeric one, two non-numeric
identifiers compare lexically by ASCII, and a strict prefix has lower
precedence than its extension. -/
theorem semver_precedence_spec :
    (isVersionHigher "1.0.0-alpha.1" "1.0.0-alpha" = true ∧
      isVersionHigher "1.0.0-alpha" "1.0.0-alpha.1" = false) ∧
    (isVersionHigher "1.0.0-alpha.beta" "1.0.0-alpha.1" = true ∧
      isVersionHigher "1.0.0-alpha.1" "1.0.0-alpha.beta" = false) ∧
    (isVersionHigher "1.0.0-beta" "1.0.0-alpha.beta" = true ∧
      isVersionHigher "1.0.0-alpha.beta" "1.0.0-beta" = false) ∧
    (isVersionHigher "1.0.0-beta.2" "1.0.0-beta" = true ∧
      isVersionHigher "1.0.0-beta" "1.0.0-beta.2" = false) ∧
    (isVersionHigher "1.0.0-beta.11" "1.0.0-beta.2" = true ∧
      isVersionHigher "1.0.0-beta.2" "1.0.0-beta.11" = false) ∧
    (isVersionHigher "1.0.0-rc.1" "1.0.0-beta.11" = true ∧
      isVersionHigher "1.0.0-beta.11" "1.0.0-rc.1" = false) ∧
    (isVersionHigher "1.0.0" "1.0.0-rc.1" = true ∧
      isVersionHigher "1.0.0-rc.1" "1.0.0" = false) ∧
    (∀ a b : String, isNumericId a = true → isNumericId b = true →
      cmpId a b =
        (if natOfDigits a.toList < natOfDigits b.toList then -1
         else if natOfDigits b.toList < natOfDigits a.toList then 1 else 0)) ∧
    (∀ a b : String, isNumericId a = true → isNumericId b = false → cmpId a b = -1) ∧
    (∀ a b : String, isNumericId a = false → isNumericId b = true → cmpId a b = 1) ∧
    (∀ a b : String, isNumericId a = false → isNumericId b = false →
      cmpId a b =
        (if lexLt a.toList b.toList then -1
         else if lexLt b.toList a.toList then 1 else 0)) ∧
    (∀ p q : List String, p ≠ [] → q ≠ [] →
      comparePrereleaseIdentifiers p (p ++ q) = -1 ∧
      comparePrereleaseIdentifiers (p ++ q) p = 1) := by
  refine ⟨⟨by decide, by decide⟩, ⟨by decide, by decide⟩, ⟨by decide, by decide⟩,
    ⟨by decide, by decide⟩, ⟨by decide, by decide⟩, ⟨by decide, by decide⟩,
    ⟨by decide, by decide⟩, ?_, ?_, ?_, ?_, ?_⟩
  · intro a b ha hb
    rw [cmpId]
    simp [ha, hb]
  · intro a b ha hb
    rw [cmpId]
    simp [ha, hb]
  · intro a b ha hb
    rw [cmpId]
    simp [ha, hb]
  · intro a b ha hb
    rw [cmpId]
    simp [ha, hb]
  · intro p q hp hq
    have hpq : p ++ q ≠ [] := fun h => hp (List.append_eq_nil.mp h).1
    constructor <;> rw [comparePrereleaseIdentifiers] <;>
      simp [hp, hq, hpq, cmpIdList_prefix p q hq, cmpIdList_prefix_gt p q hq]

/-- Witness for C2: the positional rules and the prefix rule applied at
concrete identifiers. -/
theorem semver_precedence_spec_witness :
    cmpId "2" "11" =
      (if natOfDigits "2".toList < natOfDigits "11".toList then -1
       else if natOfDigits "11".toList < natOfDigits "2".toList then 1 else 0) ∧
    cmpId "1" "beta" = -1 ∧
    cmpId "beta" "1" = 1 ∧
    cmpId "alpha" "beta" =
      (if lexLt "alpha".toList "beta".toList then -1
       else if lexLt "beta".toList "alpha".toList then 1 else 0) ∧
    (comparePrereleaseIdentifiers ["rc"] (["rc"] ++ ["1"]) = -1 ∧
      comparePrereleaseIdentifiers (["rc"] ++ ["1"]) ["rc"] = 1) := by
  obtain ⟨-, -, -, -, -, -, -, hnn, hna, han, haa, hpre⟩ := semver_precedence_spec
  exact ⟨hnn "2" "11" (by decide) (by decide), hna "1" "beta" (by decide) (by decide),
    han "beta" "1" (by decide) (by decide), haa "alpha" "beta" (by decide) (by decide),
    hpre ["rc"] ["1"] (by decide) (by decide)⟩

/-- Greedy take over an all-satisfying first part continues into the
suffix. -/
lemma all_takeWhile_append {p : Char → Bool} (l t : List Char) (h : l.all p = true) :
    (l ++ t).takeWhile p = l ++ t.takeWhile p := by
  induction l with
  | nil => simp
  | cons c cs ih =>
      rw [List.all_cons, Bool.and_eq_true] at h
      simp [List.takeWhile_cons, h.1, ih h.2]

/-- Greedy drop over an all-satisfying first part continues into the
suffix. -/
lemma all_dropWhile_append {p : Char → Bool} (l t : List Char) (h : l.all p = true) :
    (l ++ t).dropWhile p = t.dropWhile p := by
  induction l with
  | nil => simp
  | cons c cs ih =>
      rw [List.all_cons, Bool.and_eq_true] at h
      simp [List.dropWhile_cons, h.1, ih h.2]

/-- Greedy take stops inside a first part that has a failing element. -/
lemma not_all_takeWhile_append {p : Char → Bool} (l t : List Char) (h : l.all p = false) :
    (l ++ t).takeWhile p = l.takeWhile p := by
  induction l with
  | nil => simp at h
  | cons c cs ih =>
      rw [List.all_cons, Bool.and_eq_false_iff] at h
      rcases h with h | h
      · simp [List.takeWhile_cons, h]
      · cases hc : p c <;> simp [List.takeWhile_cons, hc, ih h]

/-- Greedy drop stops inside a first part that has a failing element. -/
lemma not_all_dropWhile_append {p : Char → Bool} (l t : List Char) (h : l.all p = false) :
    (l ++ t).dropWhile p = l.dropWhile p ++ t := by
  induction l with
  | nil => simp at h
  | cons c cs ih =>
      rw [List.all_cons, Bool.and_eq_false_iff] at h
      rcases h with h | h
      · simp [List.dropWhile_cons, h]
      · cases hc : p c <;> simp [List.dropWhile_cons, hc, ih h]

/-- Members of a greedy-drop remainder come from the original list. -/
lemma mem_of_mem_dropWhile {p : Char → Bool} (x : Char) (l : List Char)
    (h : x ∈ l.dropWhile p) : x ∈ l := by
  induction l with
  | nil => simp at h
  | cons c cs ih =>
      rw [List.dropWhile_cons] at h
      split_ifs at h
      · exact List.mem_cons_of_mem _ (ih h)
      · exact h

/-- An all-satisfying list is its own greedy take. -/
lemma all_takeWhile_self {p : Char → Bool} (l : List Char) (h : l.all p = true) :
    l.takeWhile p = l := by
  induction l with
  | nil => rfl
  | cons c cs ih =>
      rw [List.all_cons, Bool.and_eq_true] at h
      simp [List.takeWhile_cons, h.1, ih h.2]

/-- A successful digit-group parse survives appending a suffix that does not
start with a digit. -/
lemma takeNum_append (cs t : List Char) (n : Nat) (r : List Char)
    (ht : ∀ c, t.head? = some c → c.isDigit = false)
    (h : takeNum cs = some (n, r)) : takeNum (cs ++ t) = some (n, r ++ t) := by
  rw [takeNum] at h
  by_cases hd : cs.takeWhile Char.isDigit = []
  · rw [if_pos hd] at h
    exact absurd h (by simp)
  · rw [if_neg hd] at h
    simp only [Option.some.injEq, Prod.mk.injEq] at h
    have htw : t.takeWhile Char.isDigit = [] := by
      cases t with
      | nil => rfl
      | cons c cst => simp [List.takeWhile_cons, ht c rfl]
    have htd : t.dropWhile Char.isDigit = t := by
      cases t with
      | nil => rfl
      | cons c cst => simp [List.dropWhile_cons, ht c rfl]
    by_cases hall : cs.all Char.isDigit = true
    · have htake : cs.takeWhile Char.isDigit = cs := all_takeWhile_self cs hall
      have hcs : cs ≠ [] := fun hh => hd (by rw [hh]; rfl)
      have hr : cs.dropWhile Char.isDigit = [] := by
        rw [List.dropWhile_eq_nil_iff]
        intro x hx
        exact List.all_eq_true.mp hall x hx
      rw [htake] at h
      rw [hr] at h
      rw [takeNum, all_takeWhile_append cs t hall, all_dropWhile_append cs t hall, htw, htd,
        List.append_nil, if_neg hcs, h.1, ← h.2]
      simp
    · have hall2 : cs.all Char.isDigit = false := Bool.eq_false_iff.mpr hall
      rw [takeNum, not_all_takeWhile_append cs t hall2, not_all_dropWhile_append cs t hall2,
        if_neg hd, h.1, h.2]

/-- The remainder of a digit-group parse sits inside the input. -/
lemma takeNum_rest_mem (cs : List Char) (n : Nat) (r : List Char)
    (h : takeNum cs = some (n, r)) : ∀ x ∈ r, x ∈ cs := by
  rw [takeNum] at h
  by_cases hd : cs.takeWhile Char.isDigit = []
  · rw [if_pos hd] at h
    exact absurd h (by simp)
  · rw [if_neg hd] at h
    simp only [Option.some.injEq, Prod.mk.injEq] at h
    intro x hx
    rw [← h.2] at hx
    exact mem_of_mem_dropWhile x cs hx

/-- A successful dot consumption survives appending a suffix. -/
lemma expectDot_append (r1 t r2 : List Char) (h : expectDot r1 = some r2) :
    expectDot (r1 ++ t) = some (r2 ++ t) := by
  cases r1 with
  | nil => simp [expectDot] at h
  | cons c r =>
      rw [expectDot] at h
      split_ifs at h with hc
      · subst hc
        simp only [Option.some.injEq] at h
        subst h
        simp [expectDot]

/-- The remainder after a dot sits inside the input. -/
lemma expectDot_rest_mem (r1 r2 : List Char) (h : expectDot r1 = some r2) :
    ∀ x ∈ r2, x ∈ r1 := by
  cases r1 with
  | nil => simp [expectDot] at h
  | cons c r =>
      rw [expectDot] at h
      split_ifs at h with hc
      · simp only [Option.some.injEq] at h
        subst h
        exact fun x hx => List.mem_cons_of_mem c hx

/-- A successful major.minor.patch parse survives appending `+build`. -/
lemma parseMMP_append_plus (cs bl : List Char) (a b c : Nat) (rest : List Char)
    (h : parseMMP cs = some (a, b, c, rest)) :
    parseMMP (cs ++ '+' :: bl) = some (a, b, c, rest ++ '+' :: bl) := by
  have hplus : ∀ ch, ('+' :: bl : List Char).head? = some ch → ch.isDigit = false := by
    intro ch hch
    rw [List.head?_cons, Option.some.injEq] at hch
    subst hch
    decide
  rw [parseMMP] at h
  cases h0 : takeNum cs with
  | none =>
      simp only [h0] at h
      exact Option.noConfusion h
  | some p0 =>
      obtain ⟨a0, r1⟩ := p0
      simp only [h0] at h
      rw [parseMMP]
      simp only [takeNum_append cs ('+' :: bl) a0 r1 hplus h0]
      cases hd1 : expectDot r1 with
      | none =>
          simp only [hd1] at h
          exact Option.noConfusion h
      | some r2 =>
          simp only [hd1] at h
          simp only [expectDot_append r1 ('+' :: bl) r2 hd1]
          cases h1 : takeNum r2 with
          | none =>
              simp only [h1] at h
              exact Option.noConfusion h
          | some p1 =>
              obtain ⟨b0, r3⟩ := p1
              simp only [h1] at h
              simp only [takeNum_append r2 ('+' :: bl) b0 r3 hplus h1]
              cases hd2 : expectDot r3 with
              | none =>
          simp only [hd2] at h
          exact Option.noConfusion h
              | some r4 =>
                  simp only [hd2] at h
                  simp only [expectDot_append r3 ('+' :: bl) r4 hd2]
                  cases h2 : takeNum r4 with
                  | none =>
          simp only [h2] at h
          exact Option.noConfusion h
                  | some p2 =>
                      obtain ⟨c0, r5⟩ := p2
                      simp only [h2] at h
                      simp only [takeNum_append r4 ('+' :: bl) c0 r5 hplus h2]
                      simp only [Option.some.injEq, Prod.mk.injEq] at h ⊢
                      exact ⟨h.1, h.2.1, h.2.2.1, by rw [h.2.2.2]⟩

/-- The remaining characters of a major.minor.patch parse come from the
input. -/
lemma parseMMP_rest_mem (cs : List Char) (a b c : Nat) (rest : List Char)
    (h : parseMMP cs = some (a, b, c, rest)) : ∀ x ∈ rest, x ∈ cs := by
  rw [parseMMP] at h
  cases h0 : takeNum cs with
  | none =>
      simp only [h0] at h
      exact Option.noConfusion h
  | some p0 =>
      obtain ⟨a0, r1⟩ := p0
      simp only [h0] at h
      cases hd1 : expectDot r1 with
      | none =>
          simp only [hd1] at h
          exact Option.noConfusion h
      | some r2 =>
          simp only [hd1] at h
          cases h1 : takeNum r2 with
          | none =>
              simp only [h1] at h
              exact Option.noConfusion h
          | some p1 =>
              obtain ⟨b0, r3⟩ := p1
              simp only [h1] at h
              cases hd2 : expectDot r3 with
              | none =>
          simp only [hd2] at h
          exact Option.noConfusion h
              | some r4 =>
                  simp only [hd2] at h
                  cases h2 : takeNum r4 with
                  | none =>
          simp only [h2] at h
          exact Option.noConfusion h
                  | some p2 =>
                      obtain ⟨c0, r5⟩ := p2
                      simp only [h2, Option.some.injEq, Prod.mk.injEq] at h
                      intro x hx
                      rw [← h.2.2.2] at hx
                      have hx4 : x ∈ r4 := takeNum_rest_mem r4 c0 r5 h2 x hx
                      have hx3 : x ∈ r3 := expectDot_rest_mem r3 r4 hd2 x hx4
                      have hx2 : x ∈ r2 := takeNum_rest_mem r2 b0 r3 h1 x hx3
                      have hx1 : x ∈ r1 := expectDot_rest_mem r1 r2 hd1 x hx2
                      exact takeNum_rest_mem cs a0 r1 h0 x hx1

/-- Unfolding of the tail parse at a `'-'` head. -/
lemma parseTail_dash (rest : List Char) :
    parseTail ('-' :: rest) =
      (if rest.takeWhile semverIdChar = [] then none
       else
         match rest.dropWhile semverIdChar with
         | [] => some (splitDot (rest.takeWhile semverIdChar))
         | c2 :: b =>
             if c2 = '+' then
               (if validBuild b then some (splitDot (rest.takeWhile semverIdChar)) else none)
             else none) := by
  rfl

/-- Unfolding of the tail parse at a `'+'` head. -/
lemma parseTail_plusHead (rest : List Char) :
    parseTail ('+' :: rest) = (if validBuild rest then some [] else none) := by
  rw [parseTail]
  rw [if_neg (by decide), if_pos rfl]

/-- Unfolding of the tail parse at any other head: the regex fails. -/
lemma parseTail_other (c : Char) (rest : List Char) (h1 : ¬c = '-') (h2 : ¬c = '+') :
    parseTail (c :: rest) = none := by
  rw [parseTail]
  rw [if_neg h1, if_neg h2]

/-- A successful tail parse with no `'+'` inside survives appending
`+build`. -/
lemma parseTail_append_plus (rest bl : List Char) (pre : List String)
    (hplus : '+' ∉ rest) (hbl : validBuild bl = true)
    (h : parseTail rest = some pre) :
    parseTail (rest ++ '+' :: bl) = some pre := by
  cases rest with
  | nil =>
      rw [parseTail] at h
      simp only [Option.some.injEq] at h
      subst h
      rw [List.nil_append, parseTail_plusHead, if_pos hbl]
  | cons c rr =>
      have hcp : ¬c = '+' := by
        intro hh
        exact hplus (by rw [hh]; exact List.mem_cons_self _ _)
      have hrrp : '+' ∉ rr := fun hh => hplus (List.mem_cons_of_mem c hh)
      by_cases hc : c = '-'
      · subst hc
        rw [parseTail_dash] at h
        by_cases hp0 : rr.takeWhile semverIdChar = []
        · rw [if_pos hp0] at h
          exact Option.noConfusion h
        · rw [if_neg hp0] at h
          cases hr : rr.dropWhile semverIdChar with
          | nil =>
              simp only [hr] at h
              have hall : rr.all semverIdChar = true := by
                rw [List.all_eq_true]
                intro x hx
                exact List.dropWhile_eq_nil_iff.mp hr x hx
              have htake2 : (rr ++ '+' :: bl).takeWhile semverIdChar = rr := by
                rw [all_takeWhile_append rr _ hall, List.takeWhile_cons,
                  if_neg (by decide : ¬semverIdChar '+' = true), List.append_nil]
              have hdrop2 : (rr ++ '+' :: bl).dropWhile semverIdChar = '+' :: bl := by
                rw [all_dropWhile_append rr _ hall, List.dropWhile_cons,
                  if_neg (by decide : ¬semverIdChar '+' = true)]
              have hrrne : ¬rr = [] := fun hh => hp0 (by rw [hh]; rfl)
              have htk : rr.takeWhile semverIdChar = rr := all_takeWhile_self rr hall
              rw [htk] at h
              rw [List.cons_append, parseTail_dash, htake2, if_neg hrrne, hdrop2]
              simpa [hbl] using h
          | cons c2 b =>
              simp only [hr] at h
              by_cases hc2 : c2 = '+'
              · subst hc2
                have : '+' ∈ rr :=
                  mem_of_mem_dropWhile _ rr (hr ▸ List.mem_cons_self '+' b)
                exact absurd this hrrp
              · rw [if_neg hc2] at h
                exact Option.noConfusion h
      · rw [parseTail_other c rr hc hcp] at h
        exact Option.noConfusion h

/-- Appending `+build` (a legal build-metadata group) to a version that
parses leaves the parse result unchanged: build metadata is stripped. -/
lemma parseSemver_append_build (v : String) (r : Nat × Nat × Nat × List String)
    (bl : List Char) (hplus : '+' ∉ v.toList) (hbl : validBuild bl = true)
    (h : parseSemver v = some r) :
    parseSemver (String.mk (v.toList ++ '+' :: bl)) = some r := by
  have htl : (String.mk (v.toList ++ '+' :: bl)).toList = v.toList ++ '+' :: bl := rfl
  simp only [parseSemver, htl] at h ⊢
  have hnotall : v.toList.all (fun c => c = 'v' || c = '=') = false := by
    by_contra hcon
    have hall : v.toList.all (fun c => c = 'v' || c = '=') = true :=
      Bool.eq_true_of_not_eq_false hcon
    have hnil : v.toList.dropWhile (fun c => c = 'v' || c = '=') = [] := by
      rw [List.dropWhile_eq_nil_iff]
      intro x hx
      exact List.all_eq_true.mp hall x hx
    rw [hnil] at h
    simp only [parseMMP, takeNum] at h
    simp at h
  rw [not_all_dropWhile_append _ _ hnotall]
  cases hmp : parseMMP (v.toList.dropWhile (fun c => c = 'v' || c = '=')) with
  | none =>
      simp only [hmp] at h
      exact Option.noConfusion h
  | some q =>
      obtain ⟨a, b, c, rest⟩ := q
      simp only [hmp] at h
      have hplusrest : '+' ∉ rest := by
        intro hin
        have h1 : '+' ∈ v.toList.dropWhile (fun c => c = 'v' || c = '=') :=
          parseMMP_rest_mem _ a b c rest hmp '+' hin
        exact hplus (mem_of_mem_dropWhile _ _ h1)
      cases hpt : parseTail rest with
      | none =>
          simp only [hpt] at h
          exact Option.noConfusion h
      | some pre =>
          simp only [hpt] at h
          simp only [parseMMP_append_plus _ bl a b c rest hmp,
            parseTail_append_plus rest bl pre hplusrest hbl hpt]
          exact h

/-- C8: bumpType is `unknown` when either side fails to parse; `same` when
major.minor.patch agree and the dot-joined prerelease sequences agree
(hence reflexive on valid versions); `prerelease` when only the prerelease
differs; else the first differing component of major/minor/patch names the
bump; and build metadata never affects the parse (hence not the
classification). -/
theorem bumpType_classification_spec :
    (∀ a b : String, parseSemver a = none → bumpType a b = .unknown) ∧
    (∀ a b : String, parseSemver b = none → bumpType a b = .unknown) ∧
    (∀ (a b : String) (a0 a1 a2 : Nat) (apre : List String) (b0 b1 b2 : Nat)
        (bpre : List String),
      parseSemver a = some (a0, a1, a2, apre) → parseSemver b = some (b0, b1, b2, bpre) →
      a0 = b0 → a1 = b1 → a2 = b2 →
      ((bumpType a b = .same ↔ joinDot apre = joinDot bpre) ∧
        (bumpType a b = .prerelease ↔ joinDot apre ≠ joinDot bpre))) ∧
    (∀ (x : String) (r : Nat × Nat × Nat × List String),
      parseSemver x = some r → bumpType x x = .same) ∧
    (∀ (a b : String) (a0 a1 a2 : Nat) (apre : List String) (b0 b1 b2 : Nat)
        (bpre : List String),
      parseSemver a = some (a0, a1, a2, apre) → parseSemver b = some (b0, b1, b2, bpre) →
      (a0 ≠ b0 → bumpType a b = .major) ∧
      (a0 = b0 → a1 ≠ b1 → bumpType a b = .minor) ∧
      (a0 = b0 → a1 = b1 → a2 ≠ b2 → bumpType a b = .patch)) ∧
    (∀ (v : String) (r : Nat × Nat × Nat × List String) (bl : List Char),
      '+' ∉ v.toList → validBuild bl = true → parseSemver v = some r →
      parseSemver (String.mk (v.toList ++ '+' :: bl)) = some r) := by
  refine ⟨?_, ?_, ?_, ?_, ?_, parseSemver_append_build⟩
  · intro a b ha
    rw [bumpType, ha]
  · intro a b hb
    rw [bumpType, hb]
    cases parseSemver a <;> rfl
  · intro a b a0 a1 a2 apre b0 b1 b2 bpre ha hb h0 h1 h2
    subst h0 h1 h2
    rw [bumpType]
    simp only [ha, hb]
    by_cases hj : joinDot apre = joinDot bpre
    · simp [hj]
    · simp [hj]
  · intro x r hx
    obtain ⟨a0, a1, a2, apre⟩ := r
    rw [bumpType]
    simp only [hx]
    simp
  · intro a b a0 a1 a2 apre b0 b1 b2 bpre ha hb
    refine ⟨fun hm => ?_, fun h0 hm => ?_, fun h0 h1 hm => ?_⟩
    · rw [bumpType]
      simp only [ha, hb]
      rw [if_neg (fun hh => hm hh.1), if_pos hm]
    · subst h0
      rw [bumpType]
      simp only [ha, hb]
      rw [if_neg (fun hh => hm hh.2.1), if_neg (fun hh => hh rfl), if_pos hm]
    · subst h0 h1
      rw [bumpType]
      simp only [ha, hb]
      rw [if_neg (fun hh => hm hh.2.2), if_neg (fun hh => hh rfl),
        if_neg (fun hh => hh rfl), if_pos hm]

/-- Witness for C8: the classification rules applied at concrete version
strings, and build metadata appended to a concrete version. -/
theorem bumpType_classification_spec_witness :
    bumpType "nonsense" "1.0.0" = .unknown ∧
    bumpType "1.0.0" "nonsense" = .unknown ∧
    (bumpType "1.2.3-a.1+b1" "1.2.3-a.1" = .same ↔
      joinDot ["a", "1"] = joinDot ["a", "1"]) ∧
    bumpType "0.1.2-rc.1" "0.1.2-rc.1" = .same ∧
    bumpType "1.0.0" "2.0.0" = .major ∧
    parseSemver (String.mk ("1.2.3-a".toList ++ '+' :: ['x', 'y', 'z'])) =
      some (1, 2, 3, ["a"]) := by
  obtain ⟨hu1, hu2, hsp, hrefl, hmmp, hbuild⟩ := bumpType_classification_spec
  exact ⟨hu1 "nonsense" "1.0.0" (by decide), hu2 "1.0.0" "nonsense" (by decide),
    (hsp "1.2.3-a.1+b1" "1.2.3-a.1" 1 2 3 ["a", "1"] 1 2 3 ["a", "1"] (by decide)
      (by decide) rfl rfl rfl).1,
    hrefl "0.1.2-rc.1" (0, 1, 2, ["rc", "1"]) (by decide),
    (hmmp "1.0.0" "2.0.0" 1 0 0 [] 2 0 0 [] (by decide) (by decide)).1 (by decide),
    hbuild "1.2.3-a" (1, 2, 3, ["a"]) ['x', 'y', 'z'] (by decide) (by decide) (by decide)⟩

/-- When the last character is `'@'`, `lastIndexOf` finds the final
index. -/
lemma lastAt_of_getLast_at (cs : List Char) (hlast : cs.getLast? = some '@') :
    lastAt cs = some (cs.length - 1) := by
  induction cs with
  | nil => simp at hlast
  | cons c cs ih =>
      cases cs with
      | nil =>
          simp only [List.getLast?_singleton, Option.some.injEq] at hlast
          subst hlast
          rfl
      | cons d ds =>
          rw [List.getLast?_cons_cons] at hlast
          rw [lastAt, ih hlast]
          simp

/-- C10 counterexample: the token `@a@b@` ends with `'@'`, yet
parseSkipEntry returns the nonempty version `b@` (the separator search
succeeds at index 2, not at the final character). -/
theorem parseSkipEntry_trailing_at_cex :
    ("@a@b@".toList.getLast? = some '@') ∧
      (parseSkipEntry "@a@b@").2 = some "b@" ∧ ("b@" : String) ≠ "" := by
  decide

/-- A token that does not start with `'@'` and ends with `'@'` parses to an
empty version. -/
lemma parseSkipEntry_trailing (s : String) (hne : s.toList ≠ [])
    (hhead : ¬s.toList.head? = some '@') (hlast : s.toList.getLast? = some '@') :
    (parseSkipEntry s).2 = some "" := by
  have hcond : (s.toList.head? = some '@') = False := eq_false hhead
  have hlen : s.toList.length - 1 + 1 = s.toList.length :=
    Nat.succ_pred_eq_of_pos (List.length_pos.mpr hne)
  simp only [parseSkipEntry, hcond, if_false, lastAt_of_getLast_at s.toList hlast]
  simp only [hlen, List.drop_length]

/-- An entry that parses to an empty version is treated as having no
version: it matches unconditionally. -/
lemma skip_of_empty_version (name c w l : String) (es : List String) (e : String)
    (he : e ∈ es) (hp : parseSkipEntry e = (name, some "")) :
    shouldSkipPackage name c w l es = true := by
  induction es with
  | nil => simp at he
  | cons e0 rest ih =>
      rcases List.mem_cons.mp he with rfl | hmem
      · simp only [shouldSkipPackage, hp]
        simp [versionFalsy]
      · simp only [shouldSkipPackage]
        split_ifs with h1 h2 h3
        · exact ih hmem
        · rfl
        · rfl
        · exact ih hmem

/-- C10 (amended): a token not starting with `'@'` that ends with `'@'`
parses to the empty-string version (likewise a scope-style token whose
separator is final, e.g. `@s/p@`), and shouldSkipPackage treats the empty
version as no version at all: such an entry skips every version of the
package unconditionally. -/
theorem trailing_at_empty_version :
    (∀ s : String, s.toList ≠ [] → ¬s.toList.head? = some '@' →
      s.toList.getLast? = some '@' → (parseSkipEntry s).2 = some "") ∧
    (∀ (name c w l : String) (es : List String) (e : String), e ∈ es →
      parseSkipEntry e = (name, some "") → shouldSkipPackage name c w l es = true) ∧
    shouldSkipPackage "pkg" "1.0.0" "1.1.0" "2.0.0" ["pkg@"] = true :=
  ⟨parseSkipEntry_trailing, skip_of_empty_version, by decide⟩

/-- Witness for C10 at concrete tokens, one unscoped and one scoped. -/
theorem trailing_at_empty_version_witness :
    (parseSkipEntry "x@y@").2 = some "" ∧
      shouldSkipPackage "@s/p" "1" "2" "3" ["@s/p@"] = true := by
  obtain ⟨h1, h2, -⟩ := trailing_at_empty_version
  exact ⟨h1 "x@y@" (by decide) (by decide) (by decide),
    h2 "@s/p" "1" "2" "3" ["@s/p@"] "@s/p@" (by decide) (by decide)⟩

/-- The raw published-wanted field of a built row. -/
lemma mkRow_published_wanted (dateParse : String → Option Int)
    (fmtHost : Int → Bool → String) (now : Int) (metas : List (String × Meta))
    (useIso : Bool) (pkg : String) (info : OutdatedEntry) :
    (mkRow dateParse fmtHost now metas useIso pkg info)._published_wanted =
      (parseIsoZ dateParse ((metaFor metas pkg).timeMap.lookup info.wanted)).getD 0 := rfl

/-- The raw age-wanted field of a built row. -/
lemma mkRow_age_wanted (dateParse : String → Option Int) (fmtHost : Int → Bool → String)
    (now : Int) (metas : List (String × Meta)) (useIso : Bool) (pkg : String)
    (info : OutdatedEntry) :
    (mkRow dateParse fmtHost now metas useIso pkg info)._age_wanted =
      ageKey (daysAgo now
        (parseIsoZ dateParse ((metaFor metas pkg).timeMap.lookup info.wanted))) := rfl

/-- The raw published-latest field of a built row. -/
lemma mkRow_published_latest (dateParse : String → Option Int)
    (fmtHost : Int → Bool → String) (now : Int) (metas : List (String × Meta))
    (useIso : Bool) (pkg : String) (info : OutdatedEntry) :
    (mkRow dateParse fmtHost now metas useIso pkg info)._published_latest =
      (parseIsoZ dateParse ((metaFor metas pkg).timeMap.lookup
        (resolvedLatest info (metaFor metas pkg)))).getD 0 := rfl

/-- The raw age-latest field of a built row. -/
lemma mkRow_age_latest (dateParse : String → Option Int) (fmtHost : Int → Bool → String)
    (now : Int) (metas : List (String × Meta)) (useIso : Bool) (pkg : String)
    (info : OutdatedEntry) :
    (mkRow dateParse fmtHost now metas useIso pkg info)._age_latest =
      ageKey (daysAgo now
        (parseIsoZ dateParse ((metaFor metas pkg).timeMap.lookup
          (resolvedLatest info (metaFor metas pkg))))) := rfl

/-- The JS three-way comparison is at most zero exactly when the first key
is at most the second. -/
lemma jsle_iff {α : Type} [LinearOrder α] (x y : α) :
    ((if x < y then (-1 : Int) else if y < x then 1 else 0) ≤ 0) ↔ x ≤ y := by
  split_ifs with h1 h2
  · simp [le_of_lt h1]
  · constructor
    · intro hh
      exact absurd hh (by norm_num)
    · intro hh
      exact absurd h2 (not_lt.mpr hh)
  · simp [le_of_not_lt h2]

/-- Ascending sortRows output is sorted by the raw key, for any key whose
comparison is the JS `<` on a linearly ordered field. -/
lemma sortRows_asc_sorted {α : Type} [LinearOrder α] (k : SortKey) (kf : Row → α)
    (hk : ∀ a b : Row, keyLt k a b = decide (kf a < kf b)) (rows : List Row) :
    List.Sorted (fun a b : Row => kf a ≤ kf b) (sortRows rows k .asc) := by
  have hrel : ∀ a b : Row, (cmpRows k 1 a b ≤ 0) ↔ kf a ≤ kf b := by
    intro a b
    rw [cmpRows, hk, hk, mul_one]
    simp only [decide_eq_true_eq]
    exact jsle_iff (kf a) (kf b)
  haveI htot : IsTotal Row (fun a b : Row => cmpRows k 1 a b ≤ 0) :=
    ⟨fun a b => by
      rw [hrel, hrel]
      exact le_total _ _⟩
  haveI htrans : IsTrans Row (fun a b : Row => cmpRows k 1 a b ≤ 0) :=
    ⟨fun a b c hab hbc => by
      rw [hrel] at hab hbc ⊢
      exact le_trans hab hbc⟩
  have hs := List.sorted_insertionSort (fun a b : Row => cmpRows k 1 a b ≤ 0) rows
  have hs2 : List.Sorted (fun a b : Row => kf a ≤ kf b)
      (List.insertionSort (fun a b : Row => cmpRows k 1 a b ≤ 0) rows) :=
    List.Pairwise.imp (fun hab => (hrel _ _).mp hab) hs
  exact hs2

/-- sortRows only permutes its input. -/
lemma sortRows_perm (rows : List Row) (k : SortKey) (o : SortOrder) :
    (sortRows rows k o).Perm rows :=
  List.perm_insertionSort _ rows

/-- C9: rows built from an unknown publication timestamp store 0 in the raw
published fields and positive infinity (⊤) in the raw age fields; hence an
ascending sort by an age key puts unknown-age rows after every known-age
row (once ⊤ is reached it persists), while an ascending sort by a published
key puts unknown-timestamp rows before every row with a known (positive)
timestamp. -/
theorem buildRows_unknown_sort_sentinels :
    (∀ (dateParse : String → Option Int) (fmtHost : Int → Bool → String) (now : Int)
        (outdated : List (String × OutdatedEntry)) (metas : List (String × Meta))
        (showAll : Bool) (cutoffDays : Int) (useIso : Bool) (skipPackages : List String)
        (r : Row),
      r ∈ buildRows dateParse fmtHost now metas showAll cutoffDays useIso skipPackages
        outdated →
      ∃ info, (r.Package, info) ∈ outdated ∧
        (parseIsoZ dateParse ((metaFor metas r.Package).timeMap.lookup info.wanted) = none →
          r._published_wanted = 0 ∧ r._age_wanted = ⊤) ∧
        (parseIsoZ dateParse ((metaFor metas r.Package).timeMap.lookup
            (resolvedLatest info (metaFor metas r.Package))) = none →
          r._published_latest = 0 ∧ r._age_latest = ⊤)) ∧
    (∀ (rows : List Row) (i j : Nat) (hi : i < (sortRows rows .age_wanted .asc).length)
        (hj : j < (sortRows rows .age_wanted .asc).length), i < j →
      ((sortRows rows .age_wanted .asc).get ⟨i, hi⟩)._age_wanted = ⊤ →
      ((sortRows rows .age_wanted .asc).get ⟨j, hj⟩)._age_wanted = ⊤) ∧
    (∀ (rows : List Row) (i j : Nat) (hi : i < (sortRows rows .age_latest .asc).length)
        (hj : j < (sortRows rows .age_latest .asc).length), i < j →
      ((sortRows rows .age_latest .asc).get ⟨i, hi⟩)._age_latest = ⊤ →
      ((sortRows rows .age_latest .asc).get ⟨j, hj⟩)._age_latest = ⊤) ∧
    (∀ (rows : List Row) (i j : Nat)
        (hi : i < (sortRows rows .published_wanted .asc).length)
        (hj : j < (sortRows rows .published_wanted .asc).length), i < j →
      0 < ((sortRows rows .published_wanted .asc).get ⟨i, hi⟩)._published_wanted →
      0 < ((sortRows rows .published_wanted .asc).get ⟨j, hj⟩)._published_wanted) ∧
    (∀ (rows : List Row) (i j : Nat)
        (hi : i < (sortRows rows .published_latest .asc).length)
        (hj : j < (sortRows rows .published_latest .asc).length), i < j →
      0 < ((sortRows rows .published_latest .asc).get ⟨i, hi⟩)._published_latest →
      0 < ((sortRows rows .published_latest .asc).get ⟨j, hj⟩)._published_latest) := by
  refine ⟨?_, ?_, ?_, ?_, ?_⟩
  · intro dateParse fmtHost now outdated metas showAll cutoffDays useIso skipPackages r hr
    obtain ⟨pkg, info, hmem, hrow⟩ :=
      buildRows_mem dateParse fmtHost now metas showAll cutoffDays useIso skipPackages
        outdated r hr
    subst hrow
    rw [mkRow_Package]
    refine ⟨info, hmem, fun hw => ?_, fun hl => ?_⟩
    · rw [mkRow_published_wanted, mkRow_age_wanted, hw]
      exact ⟨rfl, rfl⟩
    · rw [mkRow_published_latest, mkRow_age_latest, hl]
      exact ⟨rfl, rfl⟩
  · intro rows i j hi hj hij htop
    have hs := sortRows_asc_sorted .age_wanted (fun r => r._age_wanted) (fun _ _ => rfl) rows
    have hle := List.Sorted.rel_get_of_lt hs
      (show (⟨i, hi⟩ : Fin (sortRows rows .age_wanted .asc).length) < ⟨j, hj⟩ from hij)
    rw [htop] at hle
    exact top_le_iff.mp hle
  · intro rows i j hi hj hij htop
    have hs := sortRows_asc_sorted .age_latest (fun r => r._age_latest) (fun _ _ => rfl) rows
    have hle := List.Sorted.rel_get_of_lt hs
      (show (⟨i, hi⟩ : Fin (sortRows rows .age_latest .asc).length) < ⟨j, hj⟩ from hij)
    rw [htop] at hle
    exact top_le_iff.mp hle
  · intro rows i j hi hj hij hpos
    have hs := sortRows_asc_sorted .published_wanted (fun r => r._published_wanted)
      (fun _ _ => rfl) rows
    have hle := List.Sorted.rel_get_of_lt hs
      (show (⟨i, hi⟩ : Fin (sortRows rows .published_wanted .asc).length) < ⟨j, hj⟩ from hij)
    exact lt_of_lt_of_le hpos hle
  · intro rows i j hi hj hij hpos
    have hs := sortRows_asc_sorted .published_latest (fun r => r._published_latest)
      (fun _ _ => rfl) rows
    have hle := List.Sorted.rel_get_of_lt hs
      (show (⟨i, hi⟩ : Fin (sortRows rows .published_latest .asc).length) < ⟨j, hj⟩ from hij)
    exact lt_of_lt_of_le hpos hle

/-- A row with known timestamps, used by the C9 witness. -/
def wRowK : Row :=
  ⟨"k", "", "", .unknown, "", .unknown, "", "", "", "", "k", 5, 5, (3 : Int), (3 : Int), ""⟩

/-- A row with unknown timestamps (sentinels stored), used by the C9
witness. -/
def wRowU : Row :=
  ⟨"u", "", "", .unknown, "", .unknown, "", "", "", "", "u", 0, 0, ⊤, ⊤, ""⟩

/-- Witness for C9: the storage sentinels on a concrete buildRows run with
no metadata, and the age-key ordering on a concrete sorted list. -/
theorem buildRows_unknown_sort_sentinels_witness :
    (∃ info, (wRowA.Package, info) ∈ [(("a" : String), wEntryA)] ∧
      (parseIsoZ (fun _ => none) ((metaFor wMetasA wRowA.Package).timeMap.lookup
          info.wanted) = none →
        wRowA._published_wanted = 0 ∧ wRowA._age_wanted = ⊤) ∧
      (parseIsoZ (fun _ => none) ((metaFor wMetasA wRowA.Package).timeMap.lookup
          (resolvedLatest info (metaFor wMetasA wRowA.Package))) = none →
        wRowA._published_latest = 0 ∧ wRowA._age_latest = ⊤)) ∧
    ((sortRows [wRowU, wRowK, wRowU] .age_wanted .asc).get ⟨2, by decide⟩)._age_wanted =
      ⊤ := by
  obtain ⟨hstore, hage, -, -, -⟩ := buildRows_unknown_sort_sentinels
  refine ⟨?_, ?_⟩
  · exact hstore (fun _ => none) (fun _ _ => "") 0 [("a", wEntryA)] wMetasA true 0 false []
      wRowA (by decide)
  · exact hage [wRowU, wRowK, wRowU] 1 2 (by decide) (by decide) (by decide) (by decide)

end OutdatedPlus
